import Mathlib

/-!
Verification of the clang-tidy analysis daemon (`src/daemon/src/main.rs`).

The daemon's pure logic is embedded shallowly: paths are strings, machine
integers are `Nat` (the source only uses them as counters/timestamps, never
relying on wraparound), filesystem and subprocess effects are passed in as
explicit inputs, and fallible Rust functions return `Except`/`Option`.
A Rust `panic` (out-of-bounds / non-char-boundary slice) is modelled as
`Option.none` from the corresponding partial operation.
-/

namespace VsxTidy

/-- Zero-based position, column counted in UTF-16 code units (struct `Position`). -/
structure Position where
  line : Nat
  character : Nat
deriving DecidableEq

/-- Source range (struct `Range`); `stop` models the Rust field `end`, which is a
reserved word in Lean. -/
structure Range where
  start : Position
  stop : Position
deriving DecidableEq

/-- A single text replacement (struct `TextEdit`). -/
structure TextEdit where
  range : Range
  new_text : String
deriving DecidableEq

/-- A named fix: a title plus an ordered edit sequence (struct `Fix`). -/
structure Fix where
  title : String
  edits : List TextEdit
deriving DecidableEq

/-- Client-visible diagnostic (struct `RpcDiagnostic`); `fixes = none` models the
omitted field for an empty fix list. -/
structure RpcDiagnostic where
  range : Range
  severity : String
  code : Option String
  message : String
  fixes : Option (List Fix)
deriving DecidableEq

/-- Internal diagnostic carrying the file it belongs to (struct `InternalDiagnostic`). -/
structure InternalDiagnostic where
  file : String
  range : Range
  severity : String
  code : Option String
  message : String
  fixes : List Fix
deriving DecidableEq

/-- Absolute-path test, embedding `Path::is_absolute` on Unix (the path starts
with a slash). -/
def isAbsolute (p : String) : Bool :=
  match p.data with
  | [] => false
  | c :: _ => c == '/'

/-- Path join, embedding `Path::join` for the cases the daemon exercises. -/
def joinPath (a b : String) : String := a ++ "/" ++ b

/-- Embeds `resolve_path`: empty input resolves to nothing, absolute paths stand,
relative paths are joined to the base directory when one is present. -/
def resolve_path (pathStr : String) (rootDir : Option String) : Option String :=
  if pathStr = "" then none
  else if isAbsolute pathStr then some pathStr
  else
    match rootDir with
    | some root => some (joinPath root pathStr)
    | none => some pathStr

/-- Embeds `normalize_severity`: `error` and `warning` stand, everything else
(notably `note`) becomes `info`. -/
def normalize_severity (raw : String) : String :=
  if raw = "error" then "error"
  else if raw = "warning" then "warning"
  else "info"

/-- Embeds `range_from_line_col`: one-column-wide range at the zero-based
position; Rust's `saturating_sub(1)` is `Nat` subtraction. -/
def range_from_line_col (line col : Nat) : Range :=
  { start := { line := line - 1, character := col - 1 }
    stop := { line := line - 1, character := (col - 1) + 1 } }

/-- Captures of one matched line of analyzer output, i.e. the named groups of
the regex in `parse_diagnostics` (`file`, `line`, `col`, `severity`, `message`,
optional `code`). The regex engine itself is an external dependency; the
pattern guarantees `severity ∈ {warning, error, note}` and that `line`/`col`
are digit strings, recorded here by their numeral value — which may be `0` or
exceed `usize`, since `\d+` matches any digit run. -/
structure DiagCaptures where
  file : String
  line : Nat
  col : Nat
  severity : String
  message : String
  code : Option String
deriving DecidableEq

/-- The largest value of `usize` on the 64-bit targets the daemon builds for. -/
def USIZE_MAX : Nat := 2 ^ 64 - 1

/-- Embeds `str::parse::<usize>` applied to a captured digit string, given by
its numeral value: the parse succeeds exactly when the value fits in `usize`
(it overflows, and `Err`s, otherwise). -/
def parse_usize (n : Nat) : Option Nat :=
  if n ≤ USIZE_MAX then some n else none

/-- Loop body of `parse_diagnostics` for one matched line, including the
`parse().ok().unwrap_or(1)` fallback the source applies to the line and column
captures. -/
def diag_of_captures (rootDir : Option String) (defaultFile : String)
    (c : DiagCaptures) : InternalDiagnostic :=
  let line_num := (parse_usize c.line).getD 1
  let col_num := (parse_usize c.col).getD 1
  { file := (resolve_path c.file rootDir).getD defaultFile
    range := range_from_line_col line_num col_num
    severity := normalize_severity c.severity
    code := c.code
    message := c.message
    fixes := [] }

/-- Embeds `parse_diagnostics`: one diagnostic per matched line. -/
def parse_diagnostics (rootDir : Option String) (defaultFile : String)
    (captures : List DiagCaptures) : List InternalDiagnostic :=
  captures.map (diag_of_captures rootDir defaultFile)

/-- Embeds `diag_key`: the merge key is a `:`-separated format string, exactly
`format!("{}:{}:{}:{}:{}", file, start.line, start.character, code_or_empty, message)`. -/
def diag_key (d : InternalDiagnostic) : String :=
  d.file ++ ":" ++ toString d.range.start.line ++ ":" ++ toString d.range.start.character
    ++ ":" ++ d.code.getD "" ++ ":" ++ d.message

/-- The merge key read as a tuple, the way the specification states it. -/
def tupleKey (d : InternalDiagnostic) : String × Nat × Nat × String × String :=
  (d.file, d.range.start.line, d.range.start.character, d.code.getD "", d.message)

/-- Association-list insert modelling `HashMap::insert` (replace the value of an
existing key, otherwise add the binding). -/
def insertDiag : List (String × InternalDiagnostic) → String → InternalDiagnostic →
    List (String × InternalDiagnostic)
  | [], k, v => [(k, v)]
  | (k1, v1) :: rest, k, v =>
    if k1 = k then (k, v) :: rest else (k1, v1) :: insertDiag rest k v

/-- Association-list lookup modelling `HashMap::get`. -/
def lookupDiag : List (String × InternalDiagnostic) → String → Option InternalDiagnostic
  | [], _ => none
  | (k1, v1) :: rest, k => if k1 = k then some v1 else lookupDiag rest k

/-- Loop body of `merge_diagnostics` for one fixes-channel diagnostic: append its
fixes to an existing entry with the same key, otherwise insert it. -/
def merge_step (m : List (String × InternalDiagnostic)) (f : InternalDiagnostic) :
    List (String × InternalDiagnostic) :=
  match lookupDiag m (diag_key f) with
  | some existing => insertDiag m (diag_key f) { existing with fixes := existing.fixes ++ f.fixes }
  | none => insertDiag m (diag_key f) f

/-- Embeds `merge_diagnostics`: drain the text-channel diagnostics into a map
keyed by `diag_key`, fold the fixes-channel diagnostics over it, return the
values (the Rust `HashMap` leaves their order unspecified; the model keeps
insertion order). -/
def merge_diagnostics (base fixes : List InternalDiagnostic) : List InternalDiagnostic :=
  let m1 := base.foldl (fun m d => insertDiag m (diag_key d) d) []
  (fixes.foldl merge_step m1).map (fun kv => kv.2)

/-- Embeds `apply_diagnostic_caps`' fix-budget loop: diagnostics with no fixes
are skipped, an exhausted budget clears later fix lists, an overfull diagnostic
keeps only the remaining budget. -/
def capFixes : Nat → List InternalDiagnostic → List InternalDiagnostic
  | _, [] => []
  | remaining, d :: rest =>
    if d.fixes = [] then d :: capFixes remaining rest
    else if remaining = 0 then { d with fixes := [] } :: capFixes 0 rest
    else if remaining < d.fixes.length then
      { d with fixes := d.fixes.take remaining } :: capFixes 0 rest
    else d :: capFixes (remaining - d.fixes.length) rest

/-- Embeds `apply_diagnostic_caps`: truncate the diagnostic list when
`maxDiags > 0`, then distribute the fix budget when `maxFixes > 0`. -/
def apply_diagnostic_caps (diags : List InternalDiagnostic) (maxDiags maxFixes : Nat) :
    List InternalDiagnostic :=
  let truncated := if 0 < maxDiags ∧ maxDiags < diags.length then diags.take maxDiags else diags
  if maxFixes = 0 then truncated else capFixes maxFixes truncated

/-- Total number of fixes carried by a diagnostic list. -/
def sumFixes (l : List InternalDiagnostic) : Nat := (l.map (fun d => d.fixes.length)).sum

theorem sumFixes_nil : sumFixes [] = 0 := rfl

theorem sumFixes_cons (d : InternalDiagnostic) (l : List InternalDiagnostic) :
    sumFixes (d :: l) = d.fixes.length + sumFixes l := by
  simp [sumFixes]

theorem capFixes_length (remaining : Nat) (l : List InternalDiagnostic) :
    (capFixes remaining l).length = l.length := by
  induction l generalizing remaining with
  | nil => rfl
  | cons d rest ih =>
    unfold capFixes
    split_ifs <;> simp [ih]

theorem capFixes_sum (remaining : Nat) (l : List InternalDiagnostic) :
    sumFixes (capFixes remaining l) ≤ remaining := by
  induction l generalizing remaining with
  | nil => simp [capFixes, sumFixes]
  | cons d rest ih =>
    unfold capFixes
    split_ifs with h0 h1 h2
    · rw [sumFixes_cons, h0]
      simpa using ih remaining
    · rw [sumFixes_cons]
      have h := ih 0
      simp only [Nat.le_zero] at h
      simp [h, h1]
    · rw [sumFixes_cons]
      have h := ih 0
      simp only [Nat.le_zero] at h
      have hlen : (d.fixes.take remaining).length = remaining := by
        simp [List.length_take]
        omega
      simp only [h]
      simp [hlen]
    · rw [sumFixes_cons]
      have h := ih (remaining - d.fixes.length)
      omega

/-- C4: after merge, `apply_diagnostic_caps` truncates to at most `maxDiags`
diagnostics whenever `maxDiags > 0` (and leaves the count alone when it is 0),
then caps the total number of surviving fixes at `maxFixes` whenever
`maxFixes > 0`, while `maxFixes = 0` leaves every surviving fix list intact. -/
theorem apply_diagnostic_caps_spec (diags : List InternalDiagnostic) (maxDiags maxFixes : Nat) :
    (apply_diagnostic_caps diags maxDiags maxFixes).length
      = (if 0 < maxDiags then min diags.length maxDiags else diags.length)
    ∧ (0 < maxFixes → sumFixes (apply_diagnostic_caps diags maxDiags maxFixes) ≤ maxFixes)
    ∧ (maxFixes = 0 → apply_diagnostic_caps diags maxDiags maxFixes
        = (if 0 < maxDiags ∧ maxDiags < diags.length then diags.take maxDiags else diags)) := by
  refine ⟨?_, ?_, ?_⟩
  · simp only [apply_diagnostic_caps]
    split_ifs <;>
      simp only [capFixes_length, List.length_take, Nat.min_def] <;>
      split_ifs <;> omega
  · intro hpos
    simp only [apply_diagnostic_caps]
    split_ifs <;> first
      | omega
      | exact capFixes_sum maxFixes _
  · intro h0
    simp only [apply_diagnostic_caps, h0]
    simp

/-- Concrete instantiation of the caps theorem: a single diagnostic carrying two
fixes under budgets `(1, 1)` keeps at most one fix. -/
def capsDemo : InternalDiagnostic :=
  { file := "a.c", range := range_from_line_col 1 1, severity := "warning",
    code := some "chk", message := "m",
    fixes := [{ title := "f1", edits := [] }, { title := "f2", edits := [] }] }

theorem apply_diagnostic_caps_spec_witness :
    sumFixes (apply_diagnostic_caps [capsDemo] 1 1) ≤ 1 :=
  (apply_diagnostic_caps_spec [capsDemo] 1 1).2.1 (by decide)

/-- C3 counterexample: the merge key is the formatted string
`file:line:char:code:message`, not the tuple, so two diagnostics whose tuples
differ (a colon inside the check code versus inside the message) collide and are
merged into one, contradicting the claim that key-tuple-distinct diagnostics are
both kept. -/
def mergeDemoText : InternalDiagnostic :=
  { file := "a.c", range := range_from_line_col 1 1, severity := "warning",
    code := some "3:m", message := "x", fixes := [] }

/-- Fixes-channel diagnostic colliding with `mergeDemoText` under `diag_key`
while differing from it under `tupleKey`. -/
def mergeDemoFix : InternalDiagnostic :=
  { file := "a.c", range := range_from_line_col 1 1, severity := "warning",
    code := some "3", message := "m:x",
    fixes := [{ title := "Apply clang-tidy fix (3)", edits := [] }] }

theorem merge_diagnostics_key_collision :
    tupleKey mergeDemoText ≠ tupleKey mergeDemoFix
    ∧ diag_key mergeDemoText = diag_key mergeDemoFix
    ∧ merge_diagnostics [mergeDemoText] [mergeDemoFix]
        = [{ mergeDemoText with fixes := mergeDemoFix.fixes }] := by
  refine ⟨by decide, by decide, by decide⟩

/-- C3 (amended): for a text-channel diagnostic and a fixes-channel diagnostic,
the two are merged (the text diagnostic keeping its fields and gaining the
fixes-channel fixes) exactly when their `diag_key` format strings agree, and in
particular whenever their key tuples agree; otherwise both are kept. -/
theorem merge_diagnostics_pair_spec (d1 d2 : InternalDiagnostic) :
    merge_diagnostics [d1] [d2]
      = (if diag_key d1 = diag_key d2
         then [{ d1 with fixes := d1.fixes ++ d2.fixes }]
         else [d1, d2])
    ∧ (tupleKey d1 = tupleKey d2 →
        merge_diagnostics [d1] [d2] = [{ d1 with fixes := d1.fixes ++ d2.fixes }]) := by
  have hmain : merge_diagnostics [d1] [d2]
      = (if diag_key d1 = diag_key d2
         then [{ d1 with fixes := d1.fixes ++ d2.fixes }]
         else [d1, d2]) := by
    by_cases h : diag_key d1 = diag_key d2
    · simp [merge_diagnostics, merge_step, insertDiag, lookupDiag, h]
    · have h2 : ¬ diag_key d2 = diag_key d1 := fun hx => h hx.symm
      simp [merge_diagnostics, merge_step, insertDiag, lookupDiag, h, h2]
  refine ⟨hmain, fun ht => ?_⟩
  have hkey : diag_key d1 = diag_key d2 := by
    unfold tupleKey at ht
    simp only [Prod.mk.injEq] at ht
    obtain ⟨hf, hl, hc, hcode, hm⟩ := ht
    unfold diag_key
    rw [hf, hl, hc, hcode, hm]
  rw [hmain, if_pos hkey]

theorem merge_diagnostics_pair_spec_witness :
    merge_diagnostics [mergeDemoText] [mergeDemoText]
      = [{ mergeDemoText with fixes := mergeDemoText.fixes ++ mergeDemoText.fixes }] :=
  (merge_diagnostics_pair_spec mergeDemoText mergeDemoText).2 rfl

/-- C5 counterexample: the regex digit group also matches `0`, and a numeral
exceeding `usize` makes the `parse()` fall back to 1; the matched line
`a.c:0:7: warning: m` yields a diagnostic of `parse_diagnostics` whose
`start.line` is 0 (saturating subtraction), not the claimed `L - 1 = -1`, and
an over-`usize` reported line likewise yields `start.line = 0` instead of
`L - 1`, so the claim fails without a `1 ≤ L ≤ usize::MAX` restriction. -/
theorem parse_diagnostics_zero_line_counterexample :
    parse_diagnostics none "a.c" [⟨"a.c", 0, 7, "warning", "m", none⟩]
        = [diag_of_captures none "a.c" ⟨"a.c", 0, 7, "warning", "m", none⟩]
    ∧ ((diag_of_captures none "a.c" ⟨"a.c", 0, 7, "warning", "m", none⟩).range.start.line : Int)
        ≠ (0 : Int) - 1
    ∧ ((diag_of_captures none "a.c"
          ⟨"a.c", 2 ^ 64, 7, "warning", "m", none⟩).range.start.line : Int)
        ≠ (2 ^ 64 : Int) - 1
    ∧ (diag_of_captures none "a.c"
          ⟨"a.c", 2 ^ 64, 7, "warning", "m", none⟩).range.start.line = 0 := by
  refine ⟨rfl, by decide, by decide, by decide⟩

/-- C5 (amended): every diagnostic produced by `parse_diagnostics` from a
matched line ends on its start line exactly one column later and carries a
normalized severity in `{error, warning, info}` with `note` mapped to `info`;
and when the reported line `L` and column `C` are at least 1 and fit in
`usize` — so neither the `unwrap_or(1)` parse fallback nor the saturating
subtraction at 0 fires — the start position is exactly `(L - 1, C - 1)`. -/
theorem parse_diagnostics_spec (rootDir : Option String) (defaultFile : String)
    (captures : List DiagCaptures) (d : InternalDiagnostic)
    (hd : d ∈ parse_diagnostics rootDir defaultFile captures)
    (hwf : ∀ c ∈ captures,
      c.severity ∈ (["warning", "error", "note"] : List String)
        ∧ 1 ≤ c.line ∧ c.line ≤ USIZE_MAX ∧ 1 ≤ c.col ∧ c.col ≤ USIZE_MAX) :
    d.range.stop.line = d.range.start.line
    ∧ d.range.stop.character = d.range.start.character + 1
    ∧ d.severity ∈ (["error", "warning", "info"] : List String)
    ∧ ∃ c ∈ captures, d = diag_of_captures rootDir defaultFile c
        ∧ d.range.start.line + 1 = c.line
        ∧ d.range.start.character + 1 = c.col
        ∧ (c.severity = "note" → d.severity = "info") := by
  obtain ⟨c, hc, rfl⟩ := List.mem_map.mp hd
  obtain ⟨hsev, hline1, hlineM, hcol1, hcolM⟩ := hwf c hc
  have hpl : (parse_usize c.line).getD 1 = c.line := by simp [parse_usize, hlineM]
  have hpc : (parse_usize c.col).getD 1 = c.col := by simp [parse_usize, hcolM]
  refine ⟨rfl, rfl, ?_, c, hc, rfl, ?_, ?_, ?_⟩
  · simp only [List.mem_cons, List.not_mem_nil, or_false] at hsev
    rcases hsev with h | h | h <;>
      simp [diag_of_captures, normalize_severity, h]
  · show ((parse_usize c.line).getD 1 - 1) + 1 = c.line
    rw [hpl]
    omega
  · show ((parse_usize c.col).getD 1 - 1) + 1 = c.col
    rw [hpc]
    omega
  · intro hnote
    simp [diag_of_captures, normalize_severity, hnote]

/-- Concrete capture line `a.c:3:5: warning: m [chk]` for instantiating the
parser theorem. -/
def parseDemoCapture : DiagCaptures :=
  { file := "a.c", line := 3, col := 5, severity := "warning", message := "m", code := some "chk" }

theorem parse_diagnostics_spec_witness :
    (diag_of_captures none "a.c" parseDemoCapture).range.stop.character
      = (diag_of_captures none "a.c" parseDemoCapture).range.start.character + 1 :=
  (parse_diagnostics_spec none "a.c" [parseDemoCapture] _
    (List.mem_singleton.mpr rfl) (by decide)).2.1

/-- Memory-tier cache entry (struct `CacheEntry`): file signature, settings
fingerprint and the cached diagnostics. -/
structure CacheEntry where
  mtime : Nat
  size : Nat
  settings_hash : Nat
  diagnostics : List RpcDiagnostic
deriving DecidableEq

/-- Association-list lookup modelling `HashMap::get` on the memory cache. -/
def lookupCache : List (String × CacheEntry) → String → Option CacheEntry
  | [], _ => none
  | (k1, v1) :: rest, k => if k1 = k then some v1 else lookupCache rest k

/-- Association-list insert modelling `HashMap::insert` on the memory cache. -/
def insertCache : List (String × CacheEntry) → String → CacheEntry →
    List (String × CacheEntry)
  | [], k, v => [(k, v)]
  | (k1, v1) :: rest, k, v =>
    if k1 = k then (k, v) :: rest else (k1, v1) :: insertCache rest k v

/-- Outcome of one `analyze_file` call: the returned diagnostics, the memory
cache after the call, the disk-cache entries written during the call, and
whether the external analyzer subprocess was invoked. -/
structure AnalyzeResult where
  diags : List RpcDiagnostic
  memCache : List (String × CacheEntry)
  diskWrites : List CacheEntry
  invoked : Bool
deriving DecidableEq

/-- Embeds `analyze_file` (the on-disk analysis path). Effects are explicit
inputs: `fileSig` is `file_signature(path)` (`none` when metadata is
unreadable), `diskRead` is the validated result of `read_disk_cache` under the
resolved cache directory (`none` when disk caching is disabled or the directory
does not resolve), and `analyzer` is the diagnostics the
run-parse-merge-cap-convert pipeline yields on a cache miss (`none` when the
subprocess invocation fails). Memory lookup hits only when `mtime`, `size` and
the settings fingerprint all match; a disk hit is promoted into the memory
tier; a miss invokes the analyzer and populates both tiers. -/
def analyze_file (filePath : String) (fileSig : Option (Nat × Nat)) (settingsHash : Nat)
    (diskRead : Option (Nat → Nat → Nat → Option (List RpcDiagnostic)))
    (analyzer : Option (List RpcDiagnostic))
    (memCache : List (String × CacheEntry)) : Except String AnalyzeResult :=
  let runAnalyzer : Except String AnalyzeResult :=
    match analyzer with
    | none => Except.error "Failed to run clang-tidy"
    | some result =>
      match fileSig with
      | some (mtime, size) =>
        Except.ok
          { diags := result
            memCache := insertCache memCache filePath ⟨mtime, size, settingsHash, result⟩
            diskWrites := if diskRead.isSome then [⟨mtime, size, settingsHash, result⟩] else []
            invoked := true }
      | none => Except.ok { diags := result, memCache := memCache, diskWrites := [], invoked := true }
  match fileSig with
  | some (mtime, size) =>
    let diskHit : Except String AnalyzeResult :=
      match diskRead.bind (fun f => f mtime size settingsHash) with
      | some d =>
        Except.ok
          { diags := d
            memCache := insertCache memCache filePath ⟨mtime, size, settingsHash, d⟩
            diskWrites := []
            invoked := false }
      | none => runAnalyzer
    match lookupCache memCache filePath with
    | some entry =>
      if entry.mtime = mtime ∧ entry.size = size ∧ entry.settings_hash = settingsHash then
        Except.ok
          { diags := entry.diagnostics, memCache := memCache, diskWrites := [], invoked := false }
      else diskHit
    | none => diskHit
  | none => runAnalyzer

theorem lookupCache_insertCache (m : List (String × CacheEntry)) (k : String) (v : CacheEntry) :
    lookupCache (insertCache m k v) k = some v := by
  induction m with
  | nil => simp [insertCache, lookupCache]
  | cons kv rest ih =>
    obtain ⟨k1, v1⟩ := kv
    by_cases h : k1 = k
    · simp [insertCache, lookupCache, h]
    · simp [insertCache, lookupCache, h, ih]

theorem insertCache_eq_self (m : List (String × CacheEntry)) (k : String)
    (v e : CacheEntry) (hl : lookupCache m k = some e) (hi : insertCache m k v = m) :
    v = e := by
  induction m with
  | nil => simp [lookupCache] at hl
  | cons kv rest ih =>
    obtain ⟨k1, v1⟩ := kv
    by_cases h : k1 = k
    · simp only [lookupCache, if_pos h, Option.some.injEq] at hl
      simp only [insertCache, if_pos h, List.cons.injEq, Prod.mk.injEq] at hi
      exact hi.1.2.trans hl
    · simp only [lookupCache, if_neg h] at hl
      simp only [insertCache, if_neg h, List.cons.injEq] at hi
      exact ih hl hi.2

theorem analyze_file_ok_lookup (filePath : String) (mtime size settingsHash : Nat)
    (diskRead : Option (Nat → Nat → Nat → Option (List RpcDiagnostic)))
    (analyzer : Option (List RpcDiagnostic))
    (memCache : List (String × CacheEntry)) (r : AnalyzeResult)
    (h1 : analyze_file filePath (some (mtime, size)) settingsHash diskRead analyzer memCache
            = Except.ok r) :
    lookupCache r.memCache filePath = some ⟨mtime, size, settingsHash, r.diags⟩ := by
  rcases hmem : lookupCache memCache filePath with _ | entry <;>
    rcases hdr : diskRead.bind (fun f => f mtime size settingsHash) with _ | d <;>
    rcases han : analyzer with _ | result <;>
    simp only [analyze_file, hmem, hdr, han] at h1
  · exact absurd h1 (by simp)
  · obtain rfl := Except.ok.inj h1
    simpa using lookupCache_insertCache memCache filePath ⟨mtime, size, settingsHash, result⟩
  · obtain rfl := Except.ok.inj h1
    simpa using lookupCache_insertCache memCache filePath ⟨mtime, size, settingsHash, d⟩
  · obtain rfl := Except.ok.inj h1
    simpa using lookupCache_insertCache memCache filePath ⟨mtime, size, settingsHash, d⟩
  · by_cases hcond : entry.mtime = mtime ∧ entry.size = size ∧ entry.settings_hash = settingsHash
    · rw [if_pos hcond] at h1
      obtain rfl := Except.ok.inj h1
      obtain ⟨h1c, h2c, h3c⟩ := hcond
      dsimp only
      rw [← h1c, ← h2c, ← h3c]
      exact hmem
    · rw [if_neg hcond] at h1
      exact absurd h1 (by simp)
  · by_cases hcond : entry.mtime = mtime ∧ entry.size = size ∧ entry.settings_hash = settingsHash
    · rw [if_pos hcond] at h1
      obtain rfl := Except.ok.inj h1
      obtain ⟨h1c, h2c, h3c⟩ := hcond
      dsimp only
      rw [← h1c, ← h2c, ← h3c]
      exact hmem
    · rw [if_neg hcond] at h1
      obtain rfl := Except.ok.inj h1
      simpa using lookupCache_insertCache memCache filePath ⟨mtime, size, settingsHash, result⟩
  · by_cases hcond : entry.mtime = mtime ∧ entry.size = size ∧ entry.settings_hash = settingsHash
    · rw [if_pos hcond] at h1
      obtain rfl := Except.ok.inj h1
      obtain ⟨h1c, h2c, h3c⟩ := hcond
      dsimp only
      rw [← h1c, ← h2c, ← h3c]
      exact hmem
    · rw [if_neg hcond] at h1
      obtain rfl := Except.ok.inj h1
      simpa using lookupCache_insertCache memCache filePath ⟨mtime, size, settingsHash, d⟩
  · by_cases hcond : entry.mtime = mtime ∧ entry.size = size ∧ entry.settings_hash = settingsHash
    · rw [if_pos hcond] at h1
      obtain rfl := Except.ok.inj h1
      obtain ⟨h1c, h2c, h3c⟩ := hcond
      dsimp only
      rw [← h1c, ← h2c, ← h3c]
      exact hmem
    · rw [if_neg hcond] at h1
      obtain rfl := Except.ok.inj h1
      simpa using lookupCache_insertCache memCache filePath ⟨mtime, size, settingsHash, d⟩

/-- C1: when `file_signature` yields `(mtime, size)` and the memory tier holds
an entry for the path, `analyze_file` returns that entry's diagnostics without
invoking the analyzer and without touching either cache tier exactly when the
entry's `mtime`, `size` and settings fingerprint all match the current ones;
consequently, after any successful call, an immediately repeated call with the
same fingerprint inputs returns the same diagnostics and does not invoke the
analyzer. -/
theorem analyze_file_cache_spec (filePath : String) (mtime size settingsHash : Nat)
    (diskRead : Option (Nat → Nat → Nat → Option (List RpcDiagnostic)))
    (analyzer : Option (List RpcDiagnostic))
    (memCache : List (String × CacheEntry)) :
    (∀ entry, lookupCache memCache filePath = some entry →
      (analyze_file filePath (some (mtime, size)) settingsHash diskRead analyzer memCache
          = Except.ok { diags := entry.diagnostics, memCache := memCache,
                        diskWrites := [], invoked := false }
        ↔ (entry.mtime = mtime ∧ entry.size = size ∧ entry.settings_hash = settingsHash)))
    ∧ (∀ r1, analyze_file filePath (some (mtime, size)) settingsHash diskRead analyzer memCache
          = Except.ok r1 →
        analyze_file filePath (some (mtime, size)) settingsHash diskRead analyzer r1.memCache
          = Except.ok { diags := r1.diags, memCache := r1.memCache,
                        diskWrites := [], invoked := false }) := by
  constructor
  · intro entry hmem
    constructor
    · intro hok
      by_contra hcond
      rcases hdr : diskRead.bind (fun f => f mtime size settingsHash) with _ | d
      · rcases han : analyzer with _ | result
        · simp only [analyze_file, hmem, hdr, han, if_neg hcond] at hok
          exact absurd hok (by simp)
        · simp only [analyze_file, hmem, hdr, han, if_neg hcond, Except.ok.injEq,
            AnalyzeResult.mk.injEq] at hok
          exact absurd hok.2.2.2 (by simp)
      · simp only [analyze_file, hmem, hdr, if_neg hcond, Except.ok.injEq,
          AnalyzeResult.mk.injEq] at hok
        obtain ⟨-, hins, -⟩ := hok
        obtain rfl := insertCache_eq_self memCache filePath _ entry hmem hins
        exact hcond ⟨rfl, rfl, rfl⟩
    · intro hcond
      simp only [analyze_file, hmem, if_pos hcond]
  · intro r1 h1
    have hlk := analyze_file_ok_lookup filePath mtime size settingsHash diskRead analyzer
      memCache r1 h1
    simp only [analyze_file, hlk]
    simp

/-- Memory-tier entry used to instantiate the cache theorem concretely. -/
def cacheDemoEntry : CacheEntry :=
  { mtime := 1, size := 2, settings_hash := 3, diagnostics := [] }

theorem analyze_file_cache_spec_witness :
    analyze_file "/p/a.cc" (some (1, 2)) 3 none (some []) [("/p/a.cc", cacheDemoEntry)]
      = Except.ok { diags := cacheDemoEntry.diagnostics,
                    memCache := [("/p/a.cc", cacheDemoEntry)],
                    diskWrites := [], invoked := false } :=
  ((analyze_file_cache_spec "/p/a.cc" 1 2 3 none (some []) [("/p/a.cc", cacheDemoEntry)]).1
    cacheDemoEntry (by decide)).mpr ⟨rfl, rfl, rfl⟩

/-- One parsed element of `compile_commands.json` (struct `CompileCommand`). -/
structure CompileCommand where
  file : String
  directory : String
  command : Option String
  arguments : Option (List String)
deriving DecidableEq

/-- Entry stored in the index's command map (struct `CompileCommandEntry`). -/
structure CompileCommandEntry where
  file : String
  directory : String
  command : Option String
  arguments : Option (List String)
deriving DecidableEq

/-- The memoized compile-database index (struct `CompileCommandsIndex`): source
path and its mtime at load, the ordered canonicalized file list, the membership
set and the per-file command map. The Rust `HashSet`/`HashMap` are modelled as
an insertion-ordered list without duplicates and an association list. -/
structure CompileCommandsIndex where
  path : String
  mtime : Nat
  files : List String
  file_set : List String
  commands : List (String × CompileCommandEntry)
deriving DecidableEq

/-- Set insert modelling `HashSet::insert`. -/
def insertSet (s : List String) (x : String) : List String :=
  if x ∈ s then s else s ++ [x]

/-- Association-list lookup modelling `HashMap::get` on the command map. -/
def lookupEntry : List (String × CompileCommandEntry) → String → Option CompileCommandEntry
  | [], _ => none
  | (k1, v1) :: rest, k => if k1 = k then some v1 else lookupEntry rest k

/-- Modelling `HashMap::entry(..).or_insert(..)`: the first binding for a key
wins. -/
def insertIfAbsent (m : List (String × CompileCommandEntry)) (k : String)
    (v : CompileCommandEntry) : List (String × CompileCommandEntry) :=
  match lookupEntry m k with
  | some _ => m
  | none => m ++ [(k, v)]

/-- The canonical path of one database entry: the relative `file` is resolved
against `directory`, then `fs::canonicalize` (the explicit `canon` input) is
applied with the unresolved path as fallback. -/
def entryCanonicalPath (canon : String → Option String) (e : CompileCommand) : String :=
  let full := if isAbsolute e.file then e.file else joinPath e.directory e.file
  (canon full).getD full

/-- Loop body of `get_compile_index` for one database entry. -/
def indexStep (canon : String → Option String) (idx : CompileCommandsIndex)
    (e : CompileCommand) : CompileCommandsIndex :=
  let canonical := entryCanonicalPath canon e
  { idx with
    file_set := insertSet idx.file_set canonical
    files := idx.files ++ [canonical]
    commands := insertIfAbsent idx.commands canonical
      ⟨e.file, e.directory, e.command, e.arguments⟩ }

/-- Embeds the index-building part of `get_compile_index` (the memoization over
the source mtime is an outer shortcut that returns an existing fresh index
unchanged). -/
def get_compile_index (canon : String → Option String) (path : String) (mtime : Nat)
    (entries : List CompileCommand) : CompileCommandsIndex :=
  entries.foldl (indexStep canon) ⟨path, mtime, [], [], []⟩

/-- Embeds `find_compile_entry`: canonicalize the query path (fallback: the
literal path), then look it up in the command map. -/
def find_compile_entry (canon : String → Option String) (index : CompileCommandsIndex)
    (filePath : String) : Option CompileCommandEntry :=
  lookupEntry index.commands ((canon filePath).getD filePath)

/-- Embeds `file_in_index`: canonicalize the query path, test set membership. -/
def file_in_index (canon : String → Option String) (filePath : String)
    (index : CompileCommandsIndex) : Bool :=
  ((canon filePath).getD filePath) ∈ index.file_set

/-- Embeds the project scheduler's file-list choice when the index is loaded
and no explicit `files` override is given (`index.files.clone()`): one
scheduled analysis and one publication per list element. -/
def project_file_list (index : CompileCommandsIndex) : List String :=
  index.files

/-- Tokenizer state of `split_command`. -/
structure SplitState where
  args : List String
  current : List Char
  in_single : Bool
  in_double : Bool
  escape : Bool

/-- One character step of `split_command`. -/
def split_step (st : SplitState) (ch : Char) : SplitState :=
  if st.escape then { st with current := st.current ++ [ch], escape := false }
  else if ch = '\\' ∧ st.in_single = false then { st with escape := true }
  else if ch = '\'' ∧ st.in_double = false then { st with in_single := !st.in_single }
  else if ch = '"' ∧ st.in_single = false then { st with in_double := !st.in_double }
  else if ch.isWhitespace ∧ st.in_single = false ∧ st.in_double = false then
    if st.current ≠ [] then { st with args := st.args ++ [String.mk st.current], current := [] }
    else st
  else { st with current := st.current ++ [ch] }

/-- Embeds `split_command`, the POSIX-like tokenizer for compile-database
command strings. -/
def split_command (command : String) : List String :=
  let fin := command.toList.foldl split_step ⟨[], [], false, false, false⟩
  if fin.current ≠ [] then fin.args ++ [String.mk fin.current] else fin.args

/-- Embeds `resolve_arguments`: prefer the entry's `arguments` verbatim, else
tokenize its `command`. -/
def resolve_arguments (entry : CompileCommandEntry) : Option (List String) :=
  match entry.arguments with
  | some args => some args
  | none => entry.command.map split_command

/-- Embeds `replace_file_arg`: substitute the temp path for every token equal
to the entry's raw `file` string or to the original absolute path; the flag
records whether any token was replaced. -/
def replace_file_arg (args : List String) (rawFile originalPath tempPath : String) :
    List String × Bool :=
  (args.map (fun a => if a = rawFile ∨ a = originalPath then tempPath else a),
   args.any (fun a => a == rawFile || a == originalPath))

/-- Embeds `analyze_file_with_content` (the unsaved-buffer path). Filesystem
and subprocess effects are explicit inputs: `tempPath` is the shadow file's
path inside the private temp directory, and `analyzer` is the final diagnostics
the run-parse-merge-cap-convert pipeline yields (with every file already
rewritten to the original path), `none` when the subprocess invocation fails.
The function takes no cache argument and performs no cache write, mirroring the
source signature. -/
def analyze_file_with_content (compileCommands : Option String)
    (index : Option CompileCommandsIndex) (canon : String → Option String)
    (filePath tempPath : String)
    (analyzer : Option (List RpcDiagnostic)) : Except String (List RpcDiagnostic) :=
  match compileCommands with
  | none => Except.error "compile_commands.json not found"
  | some _ =>
    match index with
    | none => Except.error "compile_commands index missing"
    | some idx =>
      match find_compile_entry canon idx filePath with
      | none => Except.error "compile command not found for file"
      | some entry =>
        match resolve_arguments entry with
        | none => Except.error "compile command missing arguments"
        | some args =>
          if (replace_file_arg args entry.file filePath tempPath).2 then
            match analyzer with
            | none => Except.error "Failed to run clang-tidy"
            | some diags => Except.ok diags
          else Except.error "compile command does not reference file path"

/-- Outcome of the `analyzeFile` request handler: the RPC response (ok payload
or error) together with the memory cache and the disk writes after the call. -/
structure RequestOutcome where
  response : Except String (List RpcDiagnostic)
  memCache : List (String × CacheEntry)
  diskWrites : List CacheEntry

/-- Embeds the analysis dispatch of the `analyzeFile` arm of `handle_request`:
with `fileContent` present the unsaved-buffer path runs first and a failure
falls back to the on-disk path via `unwrap_or_else(.. unwrap_or_default())`;
without `fileContent` the on-disk path runs and its error propagates to the
RPC error response. -/
def analyzeFile_dispatch (fileContent : Option String)
    (compileCommands : Option String) (index : Option CompileCommandsIndex)
    (canon : String → Option String) (filePath tempPath : String)
    (analyzerUnsaved : Option (List RpcDiagnostic))
    (fileSig : Option (Nat × Nat)) (settingsHash : Nat)
    (diskRead : Option (Nat → Nat → Nat → Option (List RpcDiagnostic)))
    (analyzerDisk : Option (List RpcDiagnostic))
    (memCache : List (String × CacheEntry)) : RequestOutcome :=
  match fileContent with
  | some _ =>
    match analyze_file_with_content compileCommands index canon filePath tempPath
        analyzerUnsaved with
    | Except.ok d => { response := Except.ok d, memCache := memCache, diskWrites := [] }
    | Except.error _ =>
      match analyze_file filePath fileSig settingsHash diskRead analyzerDisk memCache with
      | Except.ok r =>
        { response := Except.ok r.diags, memCache := r.memCache, diskWrites := r.diskWrites }
      | Except.error _ => { response := Except.ok [], memCache := memCache, diskWrites := [] }
  | none =>
    match analyze_file filePath fileSig settingsHash diskRead analyzerDisk memCache with
    | Except.ok r =>
      { response := Except.ok r.diags, memCache := r.memCache, diskWrites := r.diskWrites }
    | Except.error e => { response := Except.error e, memCache := memCache, diskWrites := [] }

/-- C2 counterexample: with `fileContent` present, when the unsaved-buffer path
fails and the on-disk fallback also fails, the client receives a success
response with empty diagnostics, not an RPC error — so the on-disk fallback's
failure does not reach the client, contrary to the claim. -/
theorem analyzeFile_dispatch_swallows_fallback_error :
    analyze_file_with_content none none (fun _ => none) "/p/a.cc" "/tmp/a.cc" none
      = Except.error "compile_commands.json not found"
    ∧ analyze_file "/p/a.cc" none 0 none none []
      = Except.error "Failed to run clang-tidy"
    ∧ analyzeFile_dispatch (some "int main(){}") none none (fun _ => none) "/p/a.cc"
        "/tmp/a.cc" none none 0 none none []
      = { response := Except.ok [], memCache := [], diskWrites := [] } := by
  refine ⟨rfl, rfl, rfl⟩

/-- C2 (amended): with `fileContent` present the unsaved-buffer path runs
first; on its failure the daemon transparently falls back to the on-disk path,
whose diagnostics are returned on success and whose failure yields a success
response with empty diagnostics — no analysis failure is surfaced as an RPC
error on this arm. -/
theorem analyzeFile_dispatch_fallback_spec (content : String)
    (compileCommands : Option String) (index : Option CompileCommandsIndex)
    (canon : String → Option String) (filePath tempPath : String)
    (analyzerUnsaved : Option (List RpcDiagnostic))
    (fileSig : Option (Nat × Nat)) (settingsHash : Nat)
    (diskRead : Option (Nat → Nat → Nat → Option (List RpcDiagnostic)))
    (analyzerDisk : Option (List RpcDiagnostic))
    (memCache : List (String × CacheEntry)) :
    (∃ d, (analyzeFile_dispatch (some content) compileCommands index canon filePath tempPath
        analyzerUnsaved fileSig settingsHash diskRead analyzerDisk memCache).response
          = Except.ok d)
    ∧ (∀ e, analyze_file_with_content compileCommands index canon filePath tempPath
          analyzerUnsaved = Except.error e →
        analyzeFile_dispatch (some content) compileCommands index canon filePath tempPath
            analyzerUnsaved fileSig settingsHash diskRead analyzerDisk memCache
          = match analyze_file filePath fileSig settingsHash diskRead analyzerDisk memCache with
            | Except.ok r =>
              { response := Except.ok r.diags, memCache := r.memCache, diskWrites := r.diskWrites }
            | Except.error _ =>
              { response := Except.ok [], memCache := memCache, diskWrites := [] }) := by
  constructor
  · rcases hu : analyze_file_with_content compileCommands index canon filePath tempPath
        analyzerUnsaved with e | d
    · rcases hd : analyze_file filePath fileSig settingsHash diskRead analyzerDisk memCache
          with e2 | r
      · exact ⟨[], by simp [analyzeFile_dispatch, hu, hd]⟩
      · exact ⟨r.diags, by simp [analyzeFile_dispatch, hu, hd]⟩
    · exact ⟨d, by simp [analyzeFile_dispatch, hu]⟩
  · intro e hu
    simp only [analyzeFile_dispatch, hu]

theorem analyzeFile_dispatch_fallback_spec_witness :
    analyzeFile_dispatch (some "int main(){}") none none (fun _ => none) "/p/a.cc"
        "/tmp/a.cc" none (some (1, 2)) 0 none (some []) []
      = { response := Except.ok [],
          memCache := [("/p/a.cc", { mtime := 1, size := 2, settings_hash := 0,
                                     diagnostics := [] })],
          diskWrites := [] } := by
  have h := (analyzeFile_dispatch_fallback_spec "int main(){}" none none (fun _ => none)
    "/p/a.cc" "/tmp/a.cc" none (some (1, 2)) 0 none (some []) []).2
    "compile_commands.json not found" rfl
  exact h

/-- C8: the unsaved-buffer path never touches either cache tier. On the
`fileContent` arm of the handler, a successful `analyze_file_with_content`
leaves the memory cache exactly as it was and produces no disk write, and any
change to either tier during the request can only come from a successful
`analyze_file` (the on-disk fallback), whose post-state the outcome then
equals. -/
theorem unsaved_path_cache_frame (content : String)
    (compileCommands : Option String) (index : Option CompileCommandsIndex)
    (canon : String → Option String) (filePath tempPath : String)
    (analyzerUnsaved : Option (List RpcDiagnostic))
    (fileSig : Option (Nat × Nat)) (settingsHash : Nat)
    (diskRead : Option (Nat → Nat → Nat → Option (List RpcDiagnostic)))
    (analyzerDisk : Option (List RpcDiagnostic))
    (memCache : List (String × CacheEntry)) :
    (∀ d, analyze_file_with_content compileCommands index canon filePath tempPath
        analyzerUnsaved = Except.ok d →
      analyzeFile_dispatch (some content) compileCommands index canon filePath tempPath
          analyzerUnsaved fileSig settingsHash diskRead analyzerDisk memCache
        = { response := Except.ok d, memCache := memCache, diskWrites := [] })
    ∧ (∀ out, analyzeFile_dispatch (some content) compileCommands index canon filePath tempPath
          analyzerUnsaved fileSig settingsHash diskRead analyzerDisk memCache = out →
        (out.memCache ≠ memCache ∨ out.diskWrites ≠ []) →
        ∃ r, analyze_file filePath fileSig settingsHash diskRead analyzerDisk memCache
            = Except.ok r
          ∧ out.memCache = r.memCache ∧ out.diskWrites = r.diskWrites) := by
  constructor
  · intro d hu
    simp only [analyzeFile_dispatch, hu]
  · intro out hout hne
    rcases hu : analyze_file_with_content compileCommands index canon filePath tempPath
        analyzerUnsaved with e | d
    · rcases hd : analyze_file filePath fileSig settingsHash diskRead analyzerDisk memCache
          with e2 | r
      · simp only [analyzeFile_dispatch, hu, hd] at hout
        rw [← hout] at hne
        simp at hne
      · refine ⟨r, rfl, ?_, ?_⟩ <;>
          · simp only [analyzeFile_dispatch, hu, hd] at hout
            rw [← hout]
    · simp only [analyzeFile_dispatch, hu] at hout
      rw [← hout] at hne
      simp at hne

/-- Compile-database index with a single entry, used to drive the
unsaved-buffer path to success in the frame witness. -/
def unsavedDemoIndex : CompileCommandsIndex :=
  { path := "/p/compile_commands.json", mtime := 0,
    files := ["/p/a.cc"], file_set := ["/p/a.cc"],
    commands := [("/p/a.cc", { file := "/p/a.cc", directory := "/p", command := none,
                               arguments := some ["cc", "/p/a.cc"] })] }

/-- Pre-existing memory-cache entry for an unrelated file, to make the frame
witness observable. -/
def frameDemoEntry : CacheEntry :=
  { mtime := 7, size := 8, settings_hash := 9, diagnostics := [] }

theorem unsaved_path_cache_frame_witness :
    analyzeFile_dispatch (some "int main(){}") (some "/p/compile_commands.json")
        (some unsavedDemoIndex) (fun _ => none) "/p/a.cc" "/tmp/shadow/a.cc" (some [])
        (some (1, 2)) 0 none none [("/q/b.cc", frameDemoEntry)]
      = { response := Except.ok [], memCache := [("/q/b.cc", frameDemoEntry)],
          diskWrites := [] } :=
  (unsaved_path_cache_frame "int main(){}" (some "/p/compile_commands.json")
    (some unsavedDemoIndex) (fun _ => none) "/p/a.cc" "/tmp/shadow/a.cc" (some [])
    (some (1, 2)) 0 none none [("/q/b.cc", frameDemoEntry)]).1 [] rfl

theorem get_compile_index_files_length_aux (canon : String → Option String)
    (entries : List CompileCommand) (idx : CompileCommandsIndex) :
    ((entries.foldl (indexStep canon) idx).files).length
      = idx.files.length + entries.length := by
  induction entries generalizing idx with
  | nil => simp
  | cons e rest ih =>
    simp only [List.foldl_cons, ih]
    simp [indexStep]
    omega

/-- C10: two database entries resolving to the same canonical path leave one
binding in the command map (the first entry's command data), one element in the
membership set, but two elements in the ordered `files` list; and in general
the `files` list the project scheduler dispatches and publishes from has one
element per database entry, duplicates included. -/
theorem compile_index_duplicate_entries (canon : String → Option String)
    (path : String) (mtime : Nat) (e1 e2 : CompileCommand)
    (h : entryCanonicalPath canon e2 = entryCanonicalPath canon e1) :
    (get_compile_index canon path mtime [e1, e2]).files
        = [entryCanonicalPath canon e1, entryCanonicalPath canon e1]
    ∧ (get_compile_index canon path mtime [e1, e2]).file_set
        = [entryCanonicalPath canon e1]
    ∧ lookupEntry (get_compile_index canon path mtime [e1, e2]).commands
          (entryCanonicalPath canon e1)
        = some { file := e1.file, directory := e1.directory, command := e1.command,
                 arguments := e1.arguments }
    ∧ (∀ entries : List CompileCommand,
        (project_file_list (get_compile_index canon path mtime entries)).length
          = entries.length) := by
  refine ⟨?_, ?_, ?_, ?_⟩
  · simp [get_compile_index, indexStep, h]
  · simp [get_compile_index, indexStep, h, insertSet]
  · simp [get_compile_index, indexStep, h, insertSet, insertIfAbsent, lookupEntry]
  · intro entries
    simpa [project_file_list, get_compile_index]
      using get_compile_index_files_length_aux canon entries ⟨path, mtime, [], [], []⟩

/-- First of two compile-database entries sharing a canonical path. -/
def dupDemo1 : CompileCommand :=
  { file := "/p/a.cc", directory := "/p", command := some "cc -c a.cc", arguments := none }

/-- Second duplicate entry, with different command data. -/
def dupDemo2 : CompileCommand :=
  { file := "/p/a.cc", directory := "/p", command := some "cc -O2 -c a.cc", arguments := none }

theorem compile_index_duplicate_entries_witness :
    (get_compile_index (fun _ => none) "/p/compile_commands.json" 0 [dupDemo1, dupDemo2]).files
      = ["/p/a.cc", "/p/a.cc"] := by
  have h := (compile_index_duplicate_entries (fun _ => none) "/p/compile_commands.json" 0
    dupDemo1 dupDemo2 rfl).1
  have he : entryCanonicalPath (fun _ => none) dupDemo1 = "/p/a.cc" := by decide
  rw [h, he]

/-- Lower-case hex digit, mirroring the `{:x}` formatter. -/
def hexDigitChar (n : Nat) : Char :=
  if n < 10 then Char.ofNat (48 + n) else Char.ofNat (87 + n)

/-- Zero-padded hex rendering of `n` to exactly `k` digits, mirroring the
`{:016x}` formatter for `k = 16` (a `u64` always fits in 16 hex digits). -/
def hexPad : Nat → Nat → List Char
  | 0, _ => []
  | k + 1, n => hexPad k (n / 16) ++ [hexDigitChar (n % 16)]

/-- The per-file eviction key prefix `<key16>-` used by `write_disk_cache`. -/
def keyPfx (key : Nat) : List Char := hexPad 16 key ++ ['-']

/-- Embeds `cache_file_name`: `format!("{:016x}-{}-{}-{:016x}.json", key, mtime,
size, settings_hash)`. File names are modelled as char lists. -/
def cache_file_name (key mtime size settingsHash : Nat) : List Char :=
  hexPad 16 key ++ ['-'] ++ Nat.toDigits 10 mtime ++ ['-'] ++ Nat.toDigits 10 size
    ++ ['-'] ++ hexPad 16 settingsHash ++ ".json".data

/-- Embeds the directory effect of a successful `write_disk_cache` on the cache
directory, modelled as its list of file names: the serialized entry is written
to a sibling temp file and atomically renamed to `cache_file_name ..`
(replacing any file of that name; the temp name disappears in the rename), and
the following scan removes every other file whose name starts with the
`<key16>-` prefix. -/
def write_disk_cache (dir : List (List Char)) (key mtime size settingsHash : Nat) :
    List (List Char) :=
  let filename := cache_file_name key mtime size settingsHash
  let afterRename := filename :: dir.filter (fun name => !(name == filename))
  afterRename.filter (fun name => name == filename || !((keyPfx key).isPrefixOf name))

theorem keyPfx_isPrefixOf_cache_file_name (key mtime size settingsHash : Nat) :
    (keyPfx key).isPrefixOf (cache_file_name key mtime size settingsHash) = true := by
  rw [List.isPrefixOf_iff_prefix]
  have hsplit : cache_file_name key mtime size settingsHash
      = keyPfx key ++ (Nat.toDigits 10 mtime ++ ['-'] ++ Nat.toDigits 10 size
          ++ ['-'] ++ hexPad 16 settingsHash ++ ".json".data) := by
    simp [cache_file_name, keyPfx]
  rw [hsplit]
  exact List.prefix_append _ _

/-- C7: after a successful `write_disk_cache` for a file with cache key `key`,
the cache directory holds exactly one file whose name starts with the
`<key16>-` prefix, and it is the newly renamed entry. -/
theorem write_disk_cache_unique_prefix (dir : List (List Char))
    (key mtime size settingsHash : Nat) :
    List.countP (fun name => (keyPfx key).isPrefixOf name)
        (write_disk_cache dir key mtime size settingsHash) = 1
    ∧ (write_disk_cache dir key mtime size settingsHash).head?
        = some (cache_file_name key mtime size settingsHash) := by
  have hpre := keyPfx_isPrefixOf_cache_file_name key mtime size settingsHash
  simp only [write_disk_cache]
  rw [List.filter_cons_of_pos (by simp)]
  constructor
  · rw [List.countP_cons, if_pos hpre]
    have hzero : List.countP (fun name => (keyPfx key).isPrefixOf name)
        (List.filter
          (fun name => name == cache_file_name key mtime size settingsHash
            || !((keyPfx key).isPrefixOf name))
          (List.filter (fun name => !(name == cache_file_name key mtime size settingsHash))
            dir)) = 0 := by
      rw [List.countP_eq_zero]
      intro a ha
      obtain ⟨ha1, ha2⟩ := List.mem_filter.mp ha
      obtain ⟨-, ha3⟩ := List.mem_filter.mp ha1
      simp only [Bool.or_eq_true, beq_iff_eq] at ha2
      simp only [Bool.not_eq_true', beq_eq_false_iff_ne, ne_eq] at ha3
      rcases ha2 with h | h
      · exact absurd h ha3
      · rw [Bool.not_eq_true'] at h
        intro hcontra
        exact absurd hcontra (by simp [h])
    rw [hzero]
  · rfl

/-- UTF-8 byte length of a char-list text, mirroring Rust's `str::len`. -/
def byteLen : List Char → Nat
  | [] => 0
  | c :: cs => c.utf8Size + byteLen cs

/-- Number of UTF-16 code units a char encodes to (`encode_utf16`): a surrogate
pair for code points at or above `0x10000`, one unit otherwise. -/
def utf16UnitLen (c : Char) : Nat := if 65536 ≤ c.toNat then 2 else 1

/-- UTF-16 length of a char-list text, mirroring `encode_utf16().count()`. -/
def utf16Len : List Char → Nat
  | [] => 0
  | c :: cs => utf16UnitLen c + utf16Len cs

/-- Whether byte offset `o` is a char boundary of the text (Rust
`str::is_char_boundary`; `o = byte length` counts as a boundary). -/
def isBoundary : List Char → Nat → Bool
  | _, 0 => true
  | [], _ + 1 => false
  | c :: cs, o + 1 => if c.utf8Size ≤ o + 1 then isBoundary cs (o + 1 - c.utf8Size) else false

/-- Drop the first `a` bytes of the text; `none` when `a` is not a char
boundary (a Rust slice at such an offset panics). -/
def dropBytes : List Char → Nat → Option (List Char)
  | t, 0 => some t
  | [], _ + 1 => none
  | c :: cs, o + 1 => if c.utf8Size ≤ o + 1 then dropBytes cs (o + 1 - c.utf8Size) else none

/-- Take the first `b` bytes of the text; `none` when `b` is not a char
boundary. -/
def takeBytes : List Char → Nat → Option (List Char)
  | _, 0 => some []
  | [], _ + 1 => none
  | c :: cs, o + 1 =>
    if c.utf8Size ≤ o + 1 then (takeBytes cs (o + 1 - c.utf8Size)).map (fun s => c :: s)
    else none

/-- The byte-range slice `&text[a..b]`: `none` models the panic on a reversed
range or a non-boundary endpoint. -/
def sliceBytes (t : List Char) (a b : Nat) : Option (List Char) :=
  if a ≤ b then (dropBytes t a).bind (fun rest => takeBytes rest (b - a)) else none

/-- Recursion of `build_line_starts` over the text, tracking the byte position:
each newline byte at position `i` contributes the line start `i + 1`. -/
def line_starts_from : List Char → Nat → List Nat
  | [], _ => []
  | c :: cs, pos =>
    if c = '\n' then (pos + 1) :: line_starts_from cs (pos + c.utf8Size)
    else line_starts_from cs (pos + c.utf8Size)

/-- Embeds `build_line_starts`: position 0 followed by the positions after each
newline byte. -/
def build_line_starts (t : List Char) : List Nat := 0 :: line_starts_from t 0

/-- The index-search loop of `offset_to_line_col`: remember the index of the
last start not exceeding the offset, stopping at the first larger start. -/
def scanLine : List Nat → Nat → Nat → Nat → Nat
  | [], _, _, line => line
  | s :: rest, offset, idx, line =>
    if offset < s then line else scanLine rest offset (idx + 1) idx

/-- Embeds `offset_to_line_col`: clamp the offset to the text length, find the
line by scanning the line-start table, slice from the line start to the offset
and count UTF-16 code units; `none` models the panic of the unguarded slice at
a non-boundary offset. -/
def offset_to_line_col (text : List Char) (line_starts : List Nat) (offset : Nat) :
    Option (Nat × Nat) :=
  let offset := min offset (byteLen text)
  let line := scanLine line_starts offset 0 0
  let line_start := (line_starts[line]?).getD 0
  (sliceBytes text line_start offset).map (fun s => (line, utf16Len s))

/-- Embeds `offset_range`: start and end positions of a byte-offset
replacement; `none` models a panic in either endpoint conversion. -/
def offset_range (text : List Char) (line_starts : List Nat) (offset length : Nat) :
    Option Range :=
  match offset_to_line_col text line_starts offset,
        offset_to_line_col text line_starts (offset + length) with
  | some (sl, sc), some (el, ec) =>
    some { start := { line := sl, character := sc }, stop := { line := el, character := ec } }
  | _, _ => none

/-- C9: `offset_to_line_col` is partial: byte offset 2 of `"aé"` lies inside
the two-byte character `é`, is below the text length, and the unguarded slice
`&text[line_start..offset]` panics there (modelled as `none`); `offset_range`,
which `parse_fixes` applies to analyzer-supplied replacement offsets, fails the
same way, so `parse_fixes` is not total over fixes documents. -/
theorem offset_to_line_col_panics_inside_char :
    2 ≤ byteLen "aé".data
    ∧ isBoundary "aé".data 2 = false
    ∧ offset_to_line_col "aé".data (build_line_starts "aé".data) 2 = none
    ∧ offset_range "aé".data (build_line_starts "aé".data) 2 0 = none := by
  refine ⟨by decide, by decide, by decide, by decide⟩

/-- C6 counterexample: at byte offset 1 of `"é"` — an offset not exceeding the
text length — `offset_to_line_col` does not return a pair at all (the slice
panics, modelled as `none`), so the claim's unconditional `returns (L, C)` is
false without a char-boundary hypothesis. -/
theorem offset_to_line_col_no_result_at_non_boundary :
    1 ≤ byteLen "é".data
    ∧ offset_to_line_col "é".data (build_line_starts "é".data) 1 = none := by
  refine ⟨by decide, by decide⟩

theorem isBoundary_zero (t : List Char) : isBoundary t 0 = true := by
  cases t <;> rfl

theorem dropBytes_boundary (t : List Char) : ∀ (a : Nat), isBoundary t a = true →
    ∃ pre r, dropBytes t a = some r ∧ t = pre ++ r ∧ byteLen pre = a := by
  induction t with
  | nil =>
    intro a hb
    match a with
    | 0 => exact ⟨[], [], rfl, rfl, rfl⟩
    | a + 1 => simp [isBoundary] at hb
  | cons c cs ih =>
    intro a hb
    match a with
    | 0 => exact ⟨[], c :: cs, rfl, rfl, rfl⟩
    | a + 1 =>
      simp only [isBoundary] at hb
      by_cases hle : c.utf8Size ≤ a + 1
      · rw [if_pos hle] at hb
        obtain ⟨pre, r, hd, ht, hl⟩ := ih (a + 1 - c.utf8Size) hb
        refine ⟨c :: pre, r, ?_, ?_, ?_⟩
        · simp only [dropBytes, if_pos hle]
          exact hd
        · rw [List.cons_append, ht]
        · simp only [byteLen, hl]
          omega
      · rw [if_neg hle] at hb
        exact absurd hb (by simp)

theorem takeBytes_boundary (t : List Char) : ∀ (b : Nat), isBoundary t b = true →
    ∃ s suf, takeBytes t b = some s ∧ t = s ++ suf ∧ byteLen s = b := by
  induction t with
  | nil =>
    intro b hb
    match b with
    | 0 => exact ⟨[], [], rfl, rfl, rfl⟩
    | b + 1 => simp [isBoundary] at hb
  | cons c cs ih =>
    intro b hb
    match b with
    | 0 => exact ⟨[], c :: cs, rfl, rfl, rfl⟩
    | b + 1 =>
      simp only [isBoundary] at hb
      by_cases hle : c.utf8Size ≤ b + 1
      · rw [if_pos hle] at hb
        obtain ⟨s, suf, hd, ht, hl⟩ := ih (b + 1 - c.utf8Size) hb
        refine ⟨c :: s, suf, ?_, ?_, ?_⟩
        · simp only [takeBytes, if_pos hle, hd, Option.map_some']
        · rw [List.cons_append, ht]
        · simp only [byteLen, hl]
          omega
      · rw [if_neg hle] at hb
        exact absurd hb (by simp)

theorem isBoundary_append (pre r : List Char) : ∀ (o : Nat), byteLen pre ≤ o →
    isBoundary (pre ++ r) o = isBoundary r (o - byteLen pre) := by
  induction pre with
  | nil => intro o h; simp [byteLen]
  | cons c cs ih =>
    intro o h
    have hsz := Char.utf8Size_pos c
    simp only [byteLen] at h
    obtain ⟨m, rfl⟩ : ∃ m, o = m + 1 := ⟨o - 1, by omega⟩
    rw [List.cons_append]
    simp only [isBoundary, byteLen]
    rw [if_pos (by omega)]
    rw [ih (m + 1 - c.utf8Size) (by omega)]
    congr 1
    omega

theorem isBoundary_cons_add (c : Char) (cs : List Char) (k : Nat)
    (h : isBoundary cs k = true) : isBoundary (c :: cs) (c.utf8Size + k) = true := by
  have hsz := Char.utf8Size_pos c
  obtain ⟨m, hm⟩ : ∃ m, c.utf8Size + k = m + 1 := ⟨c.utf8Size + k - 1, by omega⟩
  rw [hm]
  simp only [isBoundary]
  rw [if_pos (by omega)]
  have hk : m + 1 - c.utf8Size = k := by omega
  rw [hk]
  exact h

theorem line_starts_from_mem (t : List Char) : ∀ (pos s : Nat),
    s ∈ line_starts_from t pos →
    ∃ k, s = pos + k ∧ isBoundary t k = true ∧ k ≤ byteLen t := by
  induction t with
  | nil => intro pos s hs; simp [line_starts_from] at hs
  | cons c cs ih =>
    intro pos s hs
    have hsz := Char.utf8Size_pos c
    simp only [line_starts_from] at hs
    by_cases hc : c = '\n'
    · rw [if_pos hc] at hs
      rcases List.mem_cons.mp hs with rfl | hs2
      · have hnl : c.utf8Size = 1 := by rw [hc]; decide
        refine ⟨1, rfl, ?_, ?_⟩
        · have := isBoundary_cons_add c cs 0 (isBoundary_zero cs)
          rwa [hnl] at this
        · simp only [byteLen]
          omega
      · obtain ⟨k, hk, hb, hle⟩ := ih (pos + c.utf8Size) s hs2
        refine ⟨c.utf8Size + k, by omega, isBoundary_cons_add c cs k hb, ?_⟩
        simp only [byteLen]
        omega
    · rw [if_neg hc] at hs
      obtain ⟨k, hk, hb, hle⟩ := ih (pos + c.utf8Size) s hs
      refine ⟨c.utf8Size + k, by omega, isBoundary_cons_add c cs k hb, ?_⟩
      simp only [byteLen]
      omega

/-- Length of the prefix of line starts not exceeding the offset. -/
def countLE (l : List Nat) (o : Nat) : Nat :=
  (l.takeWhile (fun s => decide (s ≤ o))).length

theorem scanLine_eq (l : List Nat) (o : Nat) : ∀ (idx line : Nat),
    scanLine l o idx line = if countLE l o = 0 then line else idx + countLE l o - 1 := by
  induction l with
  | nil => intro idx line; simp [scanLine, countLE]
  | cons s rest ih =>
    intro idx line
    by_cases hs : o < s
    · have hc : countLE (s :: rest) o = 0 := by
        simp [countLE, List.takeWhile_cons]
        omega
      rw [scanLine, if_pos hs, hc]
      simp
    · have hle : s ≤ o := by omega
      have hc : countLE (s :: rest) o = countLE rest o + 1 := by
        simp [countLE, List.takeWhile_cons, hle]
      rw [scanLine, if_neg hs, ih (idx + 1) idx, hc]
      by_cases h0 : countLE rest o = 0
      · simp [h0]
      · rw [if_neg h0, if_neg (by omega : ¬ countLE rest o + 1 = 0)]
        omega

theorem countLE_le_length (l : List Nat) (o : Nat) : countLE l o ≤ l.length := by
  induction l with
  | nil => simp [countLE]
  | cons s rest ih =>
    by_cases hs : s ≤ o <;>
      simp [countLE, List.takeWhile_cons, hs] at ih ⊢
    omega

theorem get_lt_countLE (l : List Nat) (o : Nat) : ∀ (i : Nat), i < countLE l o →
    ∃ x, l[i]? = some x ∧ x ≤ o ∧ x ∈ l := by
  induction l with
  | nil => intro i hi; simp [countLE] at hi
  | cons s rest ih =>
    intro i hi
    by_cases hs : s ≤ o
    · have hc : countLE (s :: rest) o = countLE rest o + 1 := by
        simp [countLE, List.takeWhile_cons, hs]
      rw [hc] at hi
      match i with
      | 0 => exact ⟨s, List.getElem?_cons_zero, hs, List.mem_cons_self s rest⟩
      | i + 1 =>
        obtain ⟨x, hx, hxo, hxm⟩ := ih i (by omega)
        exact ⟨x, by simpa [List.getElem?_cons_succ] using hx, hxo, List.mem_cons_of_mem s hxm⟩
    · have hc : countLE (s :: rest) o = 0 := by
        simp [countLE, List.takeWhile_cons]
        omega
      rw [hc] at hi
      omega

theorem get_countLE_gt (l : List Nat) (o : Nat) : countLE l o < l.length →
    ∃ x, l[countLE l o]? = some x ∧ o < x := by
  induction l with
  | nil => intro h; simp at h
  | cons s rest ih =>
    intro h
    by_cases hs : s ≤ o
    · have hc : countLE (s :: rest) o = countLE rest o + 1 := by
        simp [countLE, List.takeWhile_cons, hs]
      rw [hc] at h ⊢
      simp only [List.getElem?_cons_succ]
      exact ih (by simpa using h)
    · have hc : countLE (s :: rest) o = 0 := by
        simp [countLE, List.takeWhile_cons]
        omega
      rw [hc]
      exact ⟨s, List.getElem?_cons_zero, by omega⟩

/-- C6 (amended): for every byte offset `o ≤ len(text)` that is a char
boundary, `offset_to_line_col` over the table `build_line_starts text` returns
`(L, C)` with `line_starts[L] ≤ o`, either `L + 1 = len(line_starts)` or
`line_starts[L+1] > o`, and `C` the UTF-16 code-unit count of the slice
`text[line_starts[L]..o]` (exhibited as the middle part of a three-way split of
the text). The boundary hypothesis is forced by the counterexample: at an
interior byte of a multi-byte character the unguarded slice panics instead of
returning a pair. -/
theorem offset_to_line_col_spec (text : List Char) (o : Nat)
    (ho : o ≤ byteLen text) (hb : isBoundary text o = true) :
    ∃ L start s,
      (build_line_starts text)[L]? = some start
      ∧ start ≤ o
      ∧ (L + 1 = (build_line_starts text).length
          ∨ ∃ next, (build_line_starts text)[L + 1]? = some next ∧ o < next)
      ∧ (∃ pre suf, text = pre ++ s ++ suf ∧ byteLen pre = start ∧ byteLen s = o - start)
      ∧ offset_to_line_col text (build_line_starts text) o = some (L, utf16Len s) := by
  have hk1 : 1 ≤ countLE (build_line_starts text) o := by
    simp [build_line_starts, countLE, List.takeWhile_cons]
  have hkle := countLE_le_length (build_line_starts text) o
  obtain ⟨start, hgetL, hstart_le, hstart_mem⟩ :=
    get_lt_countLE (build_line_starts text) o (countLE (build_line_starts text) o - 1)
      (by omega)
  have hscan : scanLine (build_line_starts text) o 0 0
      = countLE (build_line_starts text) o - 1 := by
    rw [scanLine_eq, if_neg (by omega)]
    omega
  have hnext : (countLE (build_line_starts text) o - 1) + 1 = (build_line_starts text).length
      ∨ ∃ next, (build_line_starts text)[(countLE (build_line_starts text) o - 1) + 1]?
          = some next ∧ o < next := by
    by_cases hfull : countLE (build_line_starts text) o = (build_line_starts text).length
    · left; omega
    · right
      obtain ⟨next, hn, hno⟩ := get_countLE_gt (build_line_starts text) o (by omega)
      refine ⟨next, ?_, hno⟩
      have heq : countLE (build_line_starts text) o - 1 + 1
          = countLE (build_line_starts text) o := by omega
      rw [heq]
      exact hn
  have hstart_bound : isBoundary text start = true := by
    rcases List.mem_cons.mp hstart_mem with rfl | hmem2
    · exact isBoundary_zero text
    · obtain ⟨k, hk, hbk, -⟩ := line_starts_from_mem text 0 start hmem2
      rw [hk]
      simpa using hbk
  obtain ⟨pre, r, hdrop, htext, hpre⟩ := dropBytes_boundary text start hstart_bound
  have hrb : isBoundary r (o - start) = true := by
    have h2 := isBoundary_append pre r o (by rw [hpre]; exact hstart_le)
    rw [← htext, hpre] at h2
    rw [← h2]
    exact hb
  obtain ⟨s, suf, htake, hr, hslen⟩ := takeBytes_boundary r (o - start) hrb
  have hslice : sliceBytes text start o = some s := by
    rw [sliceBytes, if_pos hstart_le, hdrop]
    simpa using htake
  refine ⟨countLE (build_line_starts text) o - 1, start, s, hgetL, hstart_le, hnext,
    ⟨pre, suf, ?_, hpre, hslen⟩, ?_⟩
  · rw [htext, hr]
    simp
  · simp only [offset_to_line_col, Nat.min_eq_left ho, hscan, hgetL, Option.getD_some,
      hslice, Option.map_some']

theorem offset_to_line_col_spec_witness :
    ∃ L start s,
      (build_line_starts "a\nb".data)[L]? = some start
      ∧ start ≤ 2
      ∧ (L + 1 = (build_line_starts "a\nb".data).length
          ∨ ∃ next, (build_line_starts "a\nb".data)[L + 1]? = some next ∧ 2 < next)
      ∧ (∃ pre suf, "a\nb".data = pre ++ s ++ suf ∧ byteLen pre = start
          ∧ byteLen s = 2 - start)
      ∧ offset_to_line_col "a\nb".data (build_line_starts "a\nb".data) 2
          = some (L, utf16Len s) :=
  offset_to_line_col_spec "a\nb".data 2 (by decide) (by decide)
